import Mathlib

/-!
Verification of the oyProjectManager naming & versioning engine.

Shallow embedding of the Python source in `oyProjectManager/core/models.py`
and `oyProjectManager/models/project.py`:

* the version-number allocator (`Version.max_version`,
  `Version._validate_version_number`),
* the alternate-shot allocator (`Sequence.getNextAlternateShotName`),
* shot number conditioning and shot code composition
  (`Shot._validates_number`, `Shot.code`),
* the name conditioners (`Project.condition_name`, `Version._condition_name`),
* the legacy asset file-name renderer and parser
  (`Asset.fileNameWithoutExtension`, `Asset.guessInfoVariablesFromFileName`,
  `Sequence.convertToRevNumber`, `Sequence.getAssetTypeWithName`),
* the shot duration bookkeeping (`Shot.__init__`,
  `Shot._validate_start_frame`, `Shot._validate_end_frame`),
* the jinja2 template rendering used by `Version.filename` / `Version.path`
  (the external engine is modelled by its documented default-undefined
  semantics).

Python strings are modelled as `List Char`; Python `None`-able values as
`Option`; exceptions as `Except` / dedicated result constructors.  All
definitions are executable so concrete runs can be checked with `decide`.
-/

namespace OyPM

/-! ## Character classes (ASCII, matching the Python 2 regex classes used) -/

/-- ASCII lowercase letter, the regex class [a-z]. -/
def isAsciiLowerC (c : Char) : Bool := 97 ≤ c.toNat && c.toNat ≤ 122

/-- ASCII uppercase letter, the regex class [A-Z]. -/
def isAsciiUpperC (c : Char) : Bool := 65 ≤ c.toNat && c.toNat ≤ 90

/-- ASCII digit, the regex class [0-9]. -/
def isAsciiDigitC (c : Char) : Bool := 48 ≤ c.toNat && c.toNat ≤ 57

/-- ASCII letter, the regex class [a-zA-Z]. -/
def isAsciiAlphaC (c : Char) : Bool := isAsciiLowerC c || isAsciiUpperC c

/-- ASCII alphanumeric, the regex class [a-zA-Z0-9]. -/
def isAlnumC (c : Char) : Bool := isAsciiAlphaC c || isAsciiDigitC c

/-- Python 2 whitespace: the characters removed by str.strip() and matched
by the regex class [ \t\n\r\f\v]. -/
def isSpacePy (c : Char) : Bool :=
  c = ' ' || c = '\t' || c = '\n' || c = '\r' || c = '\x0b' || c = '\x0c'

/-- Python str.upper() restricted to the ASCII range (all inputs handled in
this development are ASCII): lowercase letters are shifted to uppercase,
everything else is unchanged. -/
def asciiUpper (c : Char) : Char :=
  if isAsciiLowerC c then Char.ofNat (c.toNat - 32) else c

/-! ## C1 — version number allocation
Source: `Version.max_version` and `Version._validate_version_number`
(core/models.py 2627-2664).  The database is modelled as the list of
persisted Version rows of the project's session. -/

/-- A persisted Version row: the columns used by the allocator. -/
structure VersionRow where
  base_name : String
  take_name : String
  version_number : Int
deriving DecidableEq

/-- `Version.max_version`: query the rows matching the exact
(base_name, take_name) pair, order by version_number descending and take
the first; 0 when no row matches. -/
def max_version (db : List VersionRow) (b t : String) : Int :=
  match (db.filter fun r => r.base_name == b && r.take_name == t).map
      (fun r => r.version_number) with
  | [] => 0
  | v :: vs => vs.foldl max v

/-- `Version._validate_version_number`: a missing number becomes
max_version + 1; any number ≤ max_version also becomes max_version + 1;
a strictly larger number is kept. -/
def validate_version_number (db : List VersionRow) (b t : String)
    (version_number : Option Int) : Int :=
  let maxv := max_version db b t
  let v := match version_number with
    | none => maxv + 1
    | some v => v
  if v ≤ maxv then maxv + 1 else v

/-! ## C6 — alternate shot allocation
Source: `Sequence.getNextAlternateShotName` (core/models.py 1288-1304). -/

/-- The source's letter table 'ABCDEFGHIJKLMNOPRSTUVWXYZ' (no Q). -/
def alternateLetters : List Char := "ABCDEFGHIJKLMNOPRSTUVWXYZ".data

/-- The loop body of `getNextAlternateShotName`: try each letter in order,
return the first shot+letter combination not present in the shot list. -/
def nextAlternateAux (shotList : List String) (shot : String) :
    List Char → Option String
  | [] => none
  | letter :: rest =>
    let newShotNumber := shot.push letter
    if shotList.contains newShotNumber then
      nextAlternateAux shotList shot rest
    else
      some newShotNumber

/-- `Sequence.getNextAlternateShotName`: scan the alternate letters in
order and return the first unused combination, or None when all are
used. -/
def getNextAlternateShotName (shotList : List String) (shot : String) :
    Option String :=
  nextAlternateAux shotList shot alternateLetters

/-! ## C3 / C7 — shot number conditioning, shot code, number uniqueness
Source: `Shot._validates_number` (core/models.py 1617-1654), `Shot.code`
(1665-1687), `Shot.__table_args__` (1454-1457). -/

/-- Group 2 of the `Shot._validates_number` regex
(^[^0-9]*)([0-9]*)([a-zA-Z]?)([a-zA-Z0-9]*) applied to the cleaned
(all-alphanumeric) number: the digit run after the leading non-digits. -/
def shotDigitsL (raw : List Char) : List Char :=
  ((raw.filter isAlnumC).dropWhile (fun c => !isAsciiDigitC c)).takeWhile
    isAsciiDigitC

/-- Group 3 of the same regex: at most one letter right after the digit
run. -/
def shotLetterL (raw : List Char) : List Char :=
  match ((raw.filter isAlnumC).dropWhile (fun c => !isAsciiDigitC c)).dropWhile
      isAsciiDigitC with
  | c :: _ => if isAsciiAlphaC c then [c] else []
  | [] => []

/-- The conditioning applied by `Shot._validates_number`:
first every character that is not a letter or digit is removed
(re.sub of [^0-9a-zA-Z]+ with the empty string); then the whole string is
rewritten to groups 2 and 3 of the regex above, which on an
all-alphanumeric string matches the entire string exactly once; finally
the result is uppercased. -/
def shotNumberCondL (raw : List Char) : List Char :=
  (shotDigitsL raw ++ shotLetterL raw).map asciiUpper

/-- String wrapper for `shotNumberCondL`. -/
def shotNumberCond (raw : String) : String := ⟨shotNumberCondL raw.data⟩

/-- A persisted Shot row: the columns used by the number validator and the
(sequence_id, number) unique constraint. -/
structure ShotRow where
  sequence_id : Nat
  number : String
deriving DecidableEq

/-- `Shot._validates_number`: condition the number, reject it when the
conditioned form is empty, and reject it when a Shot with the same number
is already persisted for the same sequence. -/
def validates_number (db : List ShotRow) (sid : Nat) (raw : String) :
    Except String String :=
  let number := shotNumberCond raw
  if number = "" then
    .error "Shot.number is not in good format"
  else
    match db.find? (fun r => r.number == number && r.sequence_id == sid) with
    | some _ => .error "Shot.number already exists for the given sequence"
    | none => .ok number

/-- The UniqueConstraint(sequence_id, number) declared on the Shots table:
an insert whose (sequence_id, number) pair is already present fails and
leaves the table unchanged. -/
def insertShot (db : List ShotRow) (r : ShotRow) :
    Except String (List ShotRow) :=
  if db.any (fun x => x.sequence_id == r.sequence_id && x.number == r.number)
  then .error "UniqueConstraint violated"
  else .ok (db ++ [r])

/-- Python str.zfill for the digit strings at hand: pad on the left with
zeros up to the requested width. -/
def zfill (pad : Nat) (l : List Char) : List Char :=
  List.replicate (pad - l.length) '0' ++ l

/-- `Shot.code`: the digits of the stored number (uppercase letters
removed by re.sub of [A-Z]+), zero filled to the project's shot padding,
between the project's shot prefix and the non-digit remainder (digits
removed by re.sub of [0-9]+). -/
def shot_code (pre : List Char) (pad : Nat) (number : List Char) :
    List Char :=
  pre ++ zfill pad (number.filter (fun c => !isAsciiUpperC c)) ++
    number.filter (fun c => !isAsciiDigitC c)

/-! ## C8 — shot duration bookkeeping
Source: `Shot.__init__` (core/models.py 1472-1492),
`Shot._validate_start_frame` (1562-1577), `Shot._validate_end_frame`
(1579-1594), `Shot._update_duration` (1596-1599).  SQLAlchemy column
attributes are None before their first assignment, so both frame columns
start as none; the validators fire on every assignment. -/

/-- The Shot state the duration logic touches. -/
structure ShotState where
  start_frame : Option Int
  end_frame : Option Int
  duration : Int
deriving DecidableEq

/-- Assignment of start_frame through `_validate_start_frame`: None
becomes 1; duration is recomputed from the new start and the old end only
when end_frame is already set. -/
def set_start_frame (s : ShotState) (v : Option Int) : ShotState :=
  let sf := v.getD 1
  match s.end_frame with
  | some e => { s with start_frame := some sf, duration := e - sf + 1 }
  | none => { s with start_frame := some sf }

/-- Assignment of end_frame through `_validate_end_frame`: None becomes 1;
the source guards the recomputation with the OLD value of end_frame
(not start_frame), so the first assignment never recomputes.  The none
result models the Python TypeError of None - int, unreachable from
`shot_init`. -/
def set_end_frame (s : ShotState) (v : Option Int) : Option ShotState :=
  let ef := v.getD 1
  match s.end_frame with
  | some _ =>
    match s.start_frame with
    | some sf => some { s with end_frame := some ef, duration := ef - sf + 1 }
    | none => none
  | none => some { s with end_frame := some ef }

/-- `Shot.__init__`: duration is set to 1, then start_frame and end_frame
are assigned in that order through their validators. -/
def shot_init (a b : Option Int) : Option ShotState :=
  set_end_frame (set_start_frame ⟨none, none, 1⟩ a) b

/-! ## Shared string utilities -/

/-- Python str.strip(): whitespace removed from both ends. -/
def stripPy (l : List Char) : List Char :=
  ((l.dropWhile isSpacePy).reverse.dropWhile isSpacePy).reverse

/-- Python str.split on the data separator, keeping empty parts exactly
as Python does: splitting the empty string gives one empty part. -/
def splitU : List Char → List (List Char)
  | [] => [[]]
  | c :: rest =>
    if c = '_' then [] :: splitU rest
    else
      match splitU rest with
      | w :: ws => (c :: w) :: ws
      | [] => [[c]]

/-- Python separator.join for the underscore separator. -/
def joinU : List (List Char) → List Char
  | [] => []
  | [w] => w
  | w :: ws => w ++ '_' :: joinU ws

/-- Python 2 int() on a string of digits: fails on empty or non-digit
input. -/
def pyNatDigits (l : List Char) : Option Nat :=
  if !l.isEmpty && l.all isAsciiDigitC then
    some (l.foldl (fun a c => a * 10 + (c.toNat - 48)) 0)
  else none

/-- Python 2 int() on a string: surrounding whitespace is stripped, an
optional sign is accepted, and the rest must be a nonempty digit run. -/
def pyInt (l : List Char) : Option Int :=
  match stripPy l with
  | [] => none
  | c :: rest =>
    if c = '-' then (pyNatDigits rest).map (fun n => -(n : Int))
    else if c = '+' then (pyNatDigits rest).map (fun n => (n : Int))
    else (pyNatDigits (c :: rest)).map (fun n => (n : Int))

/-! ## C2 / C9 / C10 — legacy asset file-name renderer and parser
Source: `Asset.guessInfoVariablesFromFileName` (core/models.py 1854-1920),
`Asset.fileNameWithoutExtension` (1976-2001), `Asset.isValidAsset`
(2058-2092), `Asset._validateRevString` / `_validateVerString`
(2095-2124), `Sequence.convertToRevNumber` / `convertToVerNumber`
(models/project.py 1313-1332), `Sequence.getAssetTypeWithName`
(models/project.py 1360-1370). -/

/-- Per-sequence parser configuration (the legacy settings the Asset code
reads from its Sequence). -/
structure SeqCfg where
  noSubNameField : Bool
  revPre : List Char
  verPre : List Char
  assetTypeNames : List (List Char)

/-- The info variables recovered from (or rendered into) a file name. -/
structure AssetFields where
  baseName : List Char
  subName : List Char
  typeName : List Char
  revString : List Char
  verString : List Char
  userInitials : List Char
  notes : List Char
deriving DecidableEq

/-- Result of the grammar part of the parse: too few parts or a caught
IndexError leave the asset without info; an uncaught IndexError is a
crash; otherwise the raw fields are extracted. -/
inductive ExtractResult where
  | noInfo : ExtractResult
  | err : ExtractResult
  | fields : AssetFields → ExtractResult
deriving DecidableEq

/-- Overall parse outcome: soft skip (the asset is left without full
info), an uncaught exception, or full info with the converted revision
and version numbers. -/
inductive ParseOutcome where
  | noInfo : ParseOutcome
  | err : ParseOutcome
  | full : AssetFields → Int → Int → ParseOutcome
deriving DecidableEq

/-- `Sequence.getAssetTypeWithName`: linear scan of the registered asset
type names; None when no name matches. -/
def getAssetTypeWithName (types : List (List Char)) (tn : List Char) :
    Option (List Char) :=
  types.find? (fun t => t == tn)

/-- `Sequence.convertToRevNumber`: int(revString[len(revPrefix):]) — the
prefix is sliced off by length without checking that it matches. -/
def convertToRevNumber (revPre revString : List Char) : Option Int :=
  pyInt (revString.drop revPre.length)

/-- `Sequence.convertToVerNumber`: int(verString[len(verPrefix):]). -/
def convertToVerNumber (verPre verString : List Char) : Option Int :=
  pyInt (verString.drop verPre.length)

/-- The two grammars of `Asset.guessInfoVariablesFromFileName`.  With a
subName field (noSubNameField false) the guard is len(parts) < 5 and the
six field reads are wrapped in try/except IndexError, so a missing
parts[5] is a soft failure.  Without a subName field the guard is
len(parts) < 4 and parts[4] is read unguarded, so a missing parts[4] is
an uncaught IndexError. -/
def extractFields (noSub : Bool) (parts : List (List Char)) :
    ExtractResult :=
  if noSub = false then
    if parts.length < 5 then .noInfo
    else
      match parts[5]? with
      | none => .noInfo
      | some ui =>
        .fields ⟨parts.getD 0 [], parts.getD 1 [], parts.getD 2 [],
          parts.getD 3 [], parts.getD 4 [], ui,
          if 6 < parts.length then joinU (parts.drop 6) else []⟩
  else
    if parts.length < 4 then .noInfo
    else
      match parts[4]? with
      | none => .err
      | some ui =>
        .fields ⟨parts.getD 0 [], [], parts.getD 1 [], parts.getD 2 [],
          parts.getD 3 [], ui,
          if 5 < parts.length then joinU (parts.drop 5) else []⟩

/-- The resolution part of the parse: an unknown type name, or a failing
rev/ver conversion (the ValueError is caught), leaves the asset without
full info. -/
def resolveFields (cfg : SeqCfg) (f : AssetFields) : ParseOutcome :=
  match getAssetTypeWithName cfg.assetTypeNames f.typeName with
  | none => .noInfo
  | some _ =>
    match convertToRevNumber cfg.revPre f.revString,
        convertToVerNumber cfg.verPre f.verString with
    | some rev, some ver => .full f rev ver
    | _, _ => .noInfo

/-- `Asset.guessInfoVariablesFromFileName` on the extension-stripped file
name: split on the separator, extract per the grammar, then resolve. -/
def guessInfoVariablesFromFileName (cfg : SeqCfg) (fileName : List Char) :
    ParseOutcome :=
  match extractFields cfg.noSubNameField (splitU fileName) with
  | .noInfo => .noInfo
  | .err => .err
  | .fields f => resolveFields cfg f

/-- `Asset._validateRevString` / `_validateVerString`: re.match of
prefix + [0-9]+ anchored at the start only (the default prefixes r and v
contain no regex metacharacters). -/
def validRevStringB (pre s : List Char) : Bool :=
  s.take pre.length == pre &&
    (match s.drop pre.length with
     | c :: _ => isAsciiDigitC c
     | [] => false)

/-- `Asset.isValidAsset`: all fields nonempty (subName only when the
sequence has a subName field) and rev/ver strings matching the anchored
prefix + digits check. -/
def isValidAsset (cfg : SeqCfg) (f : AssetFields) : Bool :=
  (if cfg.noSubNameField then
    !f.baseName.isEmpty && !f.typeName.isEmpty && !f.revString.isEmpty &&
      !f.verString.isEmpty && !f.userInitials.isEmpty
   else
    !f.baseName.isEmpty && !f.subName.isEmpty && !f.typeName.isEmpty &&
      !f.revString.isEmpty && !f.verString.isEmpty &&
      !f.userInitials.isEmpty) &&
  validRevStringB cfg.revPre f.revString &&
  validRevStringB cfg.verPre f.verString

/-- `Asset.fileNameWithoutExtension`: None for an invalid asset;
otherwise the separator-join of baseName, subName (when the sequence has
a subName field), type name, revString, verString, userInitials, and the
notes when nonempty. -/
def fileNameWithoutExtension (cfg : SeqCfg) (f : AssetFields) :
    Option (List Char) :=
  if isValidAsset cfg f then
    some (joinU ([f.baseName] ++
      (if cfg.noSubNameField then [] else [f.subName]) ++
      [f.typeName, f.revString, f.verString, f.userInitials] ++
      (if f.notes.isEmpty then [] else [f.notes])))
  else none

/-- A new-style sequence configuration with the default prefixes and one
registered asset type MODEL. -/
def cfgNewDefault : SeqCfg := ⟨false, "r".data, "v".data, ["MODEL".data]⟩

/-- A legacy (noSubNameField) sequence configuration with the default
prefixes. -/
def cfgLegacy : SeqCfg := ⟨true, "r".data, "v".data, ["MODEL".data]⟩

/-! ## C5 — template rendering of Version.filename / Version.path
Source: `Version._template_variables`, `Version.filename`, `Version.path`
(core/models.py 2520-2550).  The external jinja2 engine is modelled by
its documented default-undefined semantics: printing an undefined
variable produces the empty string; any other access to an undefined
variable (such as attribute access) raises UndefinedError. -/

/-- A template is a sequence of tokens: literal text, a bare variable
print, or an attribute access print. -/
inductive TmplTok where
  | lit : String → TmplTok
  | var : String → TmplTok
  | attr : String → String → TmplTok
deriving DecidableEq

/-- The rendering environment: which names render(**kwargs) supplies,
and the values the engine produces for defined names. -/
structure JEnv where
  defined : List String
  varVal : String → String
  attrVal : String → String → String

/-- One token under jinja2 default-undefined semantics: a bare undefined
variable prints as the empty string; attribute access on an undefined
variable raises UndefinedError. -/
def renderTok (env : JEnv) : TmplTok → Except String String
  | .lit s => .ok s
  | .var n => if env.defined.contains n then .ok (env.varVal n) else .ok ""
  | .attr n f =>
    if env.defined.contains n then .ok (env.attrVal n f)
    else .error "UndefinedError"

/-- Rendering a whole template: concatenate token outputs, propagating
the first error. -/
def jinjaRender (env : JEnv) (ts : List TmplTok) : Except String String :=
  ts.foldlM (fun acc t => (renderTok env t).map (fun s => acc ++ s)) ""

/-- `Version._template_variables`: the names supplied to the engine. -/
def template_variables : List String := ["project", "sequence", "version", "type"]

/-- The environment `Version.filename` / `Version.path` render with. -/
def mkVersionEnv (vv : String → String) (av : String → String → String) :
    JEnv :=
  ⟨template_variables, vv, av⟩

/-! ## C4 — name conditioning
Source: `Project.condition_name` (core/models.py 1000-1028) and
`Version._condition_name` (core/models.py 2562-2584).  Both pipelines:
strip; replace - with _; (Project only) CamelCase expansion by
re.sub of (.+?[a-z]+)([A-Z]) with group1_group2; remove characters
outside [a-zA-Z0-9\s_]; remove leading non-alphabetic characters;
replace whitespace runs with _; finally uppercase (Project) or
title-case the underscore-separated words (Version). -/

/-- Replace every - with _. -/
def dashToU : List Char → List Char :=
  List.map (fun c => if c = '-' then '_' else c)

/-- The keep-set of re.sub of [^a-zA-Z0-9\s_]+ with the empty string. -/
def keepAllowedC (c : Char) : Bool := isAlnumC c || isSpacePy c || c = '_'

/-- re.sub of [^a-zA-Z0-9\s_]+ with the empty string. -/
def keepAllowed : List Char → List Char := List.filter keepAllowedC

/-- re.sub of ^[^a-zA-Z]+ with the empty string. -/
def dropLeadingNonAlpha : List Char → List Char :=
  List.dropWhile (fun c => !isAsciiAlphaC c)

/-- re.sub of ([\s])+ with _: each maximal whitespace run becomes a
single underscore; the flag records being inside a run whose underscore
is already emitted. -/
def spaceAux : Bool → List Char → List Char
  | _, [] => []
  | prevSpace, c :: rest =>
    if isSpacePy c then
      if prevSpace then spaceAux true rest else '_' :: spaceAux true rest
    else c :: spaceAux false rest

/-- Whitespace runs to single underscores. -/
def spaceRunsToU (l : List Char) : List Char := spaceAux false l

/-- Python str.upper(), character-wise. -/
def upperL : List Char → List Char := List.map asciiUpper

/-- Length of the maximal [a-z]+ run starting at index j. -/
def lcRunLen (l : List Char) (j : Nat) : Nat :=
  ((l.drop j).takeWhile isAsciiLowerC).length

/-- The character at index m exists and is uppercase. -/
def isUpperAt (l : List Char) (m : Nat) : Bool :=
  match l[m]? with
  | some c => isAsciiUpperC c
  | none => false

/-- The character at index m exists and is lowercase. -/
def isLowerAt (l : List Char) (m : Nat) : Bool :=
  match l[m]? with
  | some c => isAsciiLowerC c
  | none => false

/-- The k characters at positions i..i+k-1 exist and none is a newline
(the regex dot does not match newlines). -/
def dotSpanOk (l : List Char) (i k : Nat) : Bool :=
  decide (i + k ≤ l.length) && ((l.drop i).take k).all (fun c => c ≠ '\n')

/-- The lazy match of (.+?[a-z]+)([A-Z]) starting at position i: the
smallest k ≥ 1 such that the dot spans i..i+k-1, a lowercase run starts
at i+k, and the character right after that run is uppercase.  The
returned value is the index of that uppercase character (the end of the
match); the greedy [a-z]+ cannot backtrack usefully because every
earlier run position is lowercase, not uppercase. -/
def matchEndAt (l : List Char) (i : Nat) : Option Nat :=
  (List.range (l.length + 1)).findSome? fun k =>
    if 1 ≤ k && dotSpanOk l i k && isLowerAt l (i + k) &&
        isUpperAt l (i + k + lcRunLen l (i + k)) then
      some (i + k + lcRunLen l (i + k))
    else none

/-- re.sub scanning: the leftmost match starting at or after position
t. -/
def firstMatchFrom (l : List Char) (t : Nat) : Option Nat :=
  (List.range l.length).findSome? fun i =>
    if t ≤ i then matchEndAt l i else none

/-- The positions of the uppercase letters in front of which re.sub
inserts an underscore; scanning resumes right after each matched
uppercase letter.  Each match ends strictly later than the previous scan
position and below l.length, so the fuel l.length + 1 strictly exceeds
the possible number of matches and never runs out. -/
def camelPositions (l : List Char) : Nat → Nat → List Nat
  | 0, _ => []
  | fuel + 1, t =>
    match firstMatchFrom l t with
    | none => []
    | some e => e :: camelPositions l fuel (e + 1)

/-- Insert an underscore in front of every listed position. -/
def insertU : List Char → Nat → List Nat → List Char
  | [], _, _ => []
  | c :: rest, idx, ps =>
    (if ps.contains idx then ['_', c] else [c]) ++ insertU rest (idx + 1) ps

/-- re.sub of (.+?[a-z]+)([A-Z]) with group1_group2: the replacement
reproduces the matched text with an underscore inserted in front of the
final uppercase letter, so the whole substitution inserts an underscore
at every match-end position. -/
def camelSub (l : List Char) : List Char :=
  insertU l 0 (camelPositions l (l.length + 1) 0)

/-- `Project.condition_name` (the raises for None / empty input and
empty result are outside this pure pipeline). -/
def condition_name (l : List Char) : List Char :=
  upperL (spaceRunsToU (dropLeadingNonAlpha (keepAllowed (camelSub
    (dashToU (stripPy l))))))

/-- word0.upper() + word1:, applied to one split word. -/
def capWord : List Char → List Char
  | [] => []
  | c :: rest => asciiUpper c :: rest

/-- The final step of `Version._condition_name`: split on _, keep the
nonempty words, capitalize the first letter of each, join with _. -/
def titleCaseU (l : List Char) : List Char :=
  joinU (((splitU l).filter (fun w => !w.isEmpty)).map capWord)

/-- `Version._condition_name`: same pipeline without the CamelCase
expansion, ending in per-word capitalization instead of uppercasing. -/
def version_condition_name (l : List Char) : List Char :=
  titleCaseU (spaceRunsToU (dropLeadingNonAlpha (keepAllowed (dashToU
    (stripPy l)))))

/-- The character set of a conditioned Project name: uppercase letters,
digits and underscores. -/
def goodPC (c : Char) : Bool := isAsciiUpperC c || isAsciiDigitC c || c = '_'

/-! ## Theorems -/

/-- C1: allocation: with max_version the largest persisted version_number
for the exact (base_name, take_name) pair (0 when no row matches), a
missing requested number and any requested number ≤ max_version allocate
max_version + 1, and a requested number > max_version allocates exactly
that number. -/
theorem C1_version_allocation (db : List VersionRow) (b t : String)
    (req : Int) :
    ((∀ r ∈ db, ¬(r.base_name = b ∧ r.take_name = t)) →
      max_version db b t = 0)
    ∧ validate_version_number db b t none = max_version db b t + 1
    ∧ (req ≤ max_version db b t →
        validate_version_number db b t (some req) = max_version db b t + 1)
    ∧ (max_version db b t < req →
        validate_version_number db b t (some req) = req) := by
  refine ⟨?_, ?_, ?_, ?_⟩
  · intro h
    have hf : db.filter (fun r => r.base_name == b && r.take_name == t) = [] := by
      rw [List.filter_eq_nil_iff]
      intro r hr
      have := h r hr
      simp only [Bool.and_eq_true, beq_iff_eq]
      tauto
    simp [max_version, hf]
  · simp [validate_version_number]
  · intro h
    simp [validate_version_number, if_pos h]
  · intro h
    simp [validate_version_number]
    omega

/-- C1 witness: a concrete database with max version 2 for the pair
(A, MAIN): requesting 1 (≤ max) allocates 3, requesting 7 (> max)
allocates 7, and the hypotheses hold by computation. -/
theorem C1_version_allocation_witness :
    (1 : Int) ≤ max_version [⟨"A", "MAIN", 2⟩] "A" "MAIN"
    ∧ validate_version_number [⟨"A", "MAIN", 2⟩] "A" "MAIN" (some 1) =
        max_version [⟨"A", "MAIN", 2⟩] "A" "MAIN" + 1 :=
  ⟨by decide,
   (C1_version_allocation [⟨"A", "MAIN", 2⟩] "A" "MAIN" 1).2.2.1 (by decide)⟩

/-- C6: the alternate allocator scans A..Z with Q excluded in alphabetical
order, returns the first shot+letter combination not in the shot list
(none when every letter is used), and on shots 10, 10A and 10B the next
alternate of shot 10 is 10C. -/
theorem C6_alternate_allocation (shotList : List String) (shot : String) :
    alternateLetters =
      ((List.range 26).map (fun i => Char.ofNat (65 + i))).filter
        (fun c => c ≠ 'Q')
    ∧ getNextAlternateShotName shotList shot =
        (alternateLetters.find? (fun l => !shotList.contains (shot.push l))).map
          (fun l => shot.push l)
    ∧ (getNextAlternateShotName shotList shot = none ↔
        ∀ l ∈ alternateLetters, (shot.push l) ∈ shotList)
    ∧ getNextAlternateShotName ["10", "10A", "10B"] "10" = some "10C" := by
  refine ⟨by decide, ?_, ?_, by decide⟩
  · show nextAlternateAux shotList shot alternateLetters = _
    induction alternateLetters with
    | nil => rfl
    | cons l rest ih =>
      cases h : shotList.contains (shot.push l) with
      | true => simp only [nextAlternateAux, h, if_true, List.find?, Bool.not_true, ih]
      | false =>
        simp only [nextAlternateAux, h, List.find?, Bool.not_false, Option.map_some']
        simp
  · show nextAlternateAux shotList shot alternateLetters = none ↔ _
    induction alternateLetters with
    | nil => simp [nextAlternateAux]
    | cons l rest ih =>
      cases h : shotList.contains (shot.push l) with
      | true =>
        have hm : shot.push l ∈ shotList := by simpa using h
        simp only [nextAlternateAux, h, if_true, ih]
        constructor
        · intro hall l' hl'
          rcases List.mem_cons.mp hl' with rfl | hl'
          · exact hm
          · exact hall l' hl'
        · intro hall l' hl'
          exact hall l' (List.mem_cons_of_mem _ hl')
      | false =>
        have hm : ¬shot.push l ∈ shotList := by simpa using h
        simp only [nextAlternateAux, h]
        constructor
        · intro hc
          exact absurd hc (by simp)
        · intro hall
          exact absurd (hall l (List.mem_cons_self _ _)) hm

theorem char_toNat_ofNat_small (n : Nat) (h : n < 128) :
    (Char.ofNat n).toNat = n := by
  have hv : Nat.isValidChar n := Or.inl (by omega)
  rw [Char.ofNat, dif_pos hv]
  simp [Char.ofNatAux, Char.toNat, UInt32.toNat, UInt32.ofNatCore]

theorem isAsciiLowerC_iff {c : Char} :
    isAsciiLowerC c = true ↔ 97 ≤ c.toNat ∧ c.toNat ≤ 122 := by
  simp [isAsciiLowerC]

theorem isAsciiUpperC_iff {c : Char} :
    isAsciiUpperC c = true ↔ 65 ≤ c.toNat ∧ c.toNat ≤ 90 := by
  simp [isAsciiUpperC]

theorem isAsciiDigitC_iff {c : Char} :
    isAsciiDigitC c = true ↔ 48 ≤ c.toNat ∧ c.toNat ≤ 57 := by
  simp [isAsciiDigitC]

theorem asciiUpper_of_not_lower {c : Char} (h : isAsciiLowerC c = false) :
    asciiUpper c = c := by
  simp [asciiUpper, h]

theorem asciiUpper_toNat (c : Char) :
    (asciiUpper c).toNat =
      if 97 ≤ c.toNat ∧ c.toNat ≤ 122 then c.toNat - 32 else c.toNat := by
  by_cases h : isAsciiLowerC c = true
  · have hb := isAsciiLowerC_iff.mp h
    rw [asciiUpper, if_pos h, char_toNat_ofNat_small _ (by omega), if_pos hb]
  · have hb : ¬(97 ≤ c.toNat ∧ c.toNat ≤ 122) := fun hx =>
      h (isAsciiLowerC_iff.mpr hx)
    rw [asciiUpper, if_neg h, if_neg hb]

theorem asciiUpper_of_digit {c : Char} (h : isAsciiDigitC c = true) :
    asciiUpper c = c := by
  have := isAsciiDigitC_iff.mp h
  refine asciiUpper_of_not_lower ?_
  rw [← Bool.not_eq_true, isAsciiLowerC_iff]
  omega

theorem isAsciiUpperC_asciiUpper_of_alpha {c : Char}
    (h : isAsciiAlphaC c = true) : isAsciiUpperC (asciiUpper c) = true := by
  have h' : isAsciiLowerC c = true ∨ isAsciiUpperC c = true := by
    simpa [isAsciiAlphaC] using h
  rcases h' with hl | hu
  · have hb := isAsciiLowerC_iff.mp hl
    rw [isAsciiUpperC_iff, asciiUpper_toNat, if_pos hb]
    omega
  · have hb := isAsciiUpperC_iff.mp hu
    rw [asciiUpper_of_not_lower (by rw [← Bool.not_eq_true, isAsciiLowerC_iff]; omega)]
    exact hu

theorem not_digit_of_upper {c : Char} (h : isAsciiUpperC c = true) :
    isAsciiDigitC c = false := by
  have := isAsciiUpperC_iff.mp h
  rw [← Bool.not_eq_true, isAsciiDigitC_iff]
  omega

theorem not_upper_of_digit {c : Char} (h : isAsciiDigitC c = true) :
    isAsciiUpperC c = false := by
  have := isAsciiDigitC_iff.mp h
  rw [← Bool.not_eq_true, isAsciiUpperC_iff]
  omega

theorem shotDigitsL_digits (raw : List Char) :
    ∀ c ∈ shotDigitsL raw, isAsciiDigitC c = true := fun _ hc =>
  List.mem_takeWhile_imp hc

theorem shotLetterL_alpha (raw : List Char) :
    ∀ c ∈ shotLetterL raw, isAsciiAlphaC c = true := by
  intro c hc
  unfold shotLetterL at hc
  split at hc
  · split at hc
    · rcases List.mem_singleton.mp hc with rfl
      assumption
    · simp at hc
  · simp at hc

/-- C3: the shot code is the shot prefix, the zero-padded digit run of the
conditioned number and the upper-cased letter run, and with the default
prefix SH and padding 3 the numbers 1, 12a and abc323d produce SH001,
SH012A and SH323D. -/
theorem C3_shot_code (raw pre : List Char) (pad : Nat) :
    (∃ ds ltr, shotNumberCondL raw = ds ++ ltr
      ∧ (∀ c ∈ ds, isAsciiDigitC c = true)
      ∧ (∀ c ∈ ltr, isAsciiUpperC c = true)
      ∧ shot_code pre pad (shotNumberCondL raw) = pre ++ zfill pad ds ++ ltr)
    ∧ shot_code "SH".data 3 (shotNumberCondL "1".data) = "SH001".data
    ∧ shot_code "SH".data 3 (shotNumberCondL "12a".data) = "SH012A".data
    ∧ shot_code "SH".data 3 (shotNumberCondL "abc323d".data) = "SH323D".data := by
  refine ⟨?_, by decide, by decide, by decide⟩
  refine ⟨shotDigitsL raw, (shotLetterL raw).map asciiUpper, ?_, ?_, ?_, ?_⟩
  · rw [shotNumberCondL, List.map_append]
    congr 1
    rw [List.map_congr_left fun c hc =>
      asciiUpper_of_digit (shotDigitsL_digits raw c hc)]
    exact List.map_id _
  · exact shotDigitsL_digits raw
  · intro c hc
    rcases List.mem_map.mp hc with ⟨d, hd, rfl⟩
    exact isAsciiUpperC_asciiUpper_of_alpha (shotLetterL_alpha raw d hd)
  · have hds : (shotNumberCondL raw) = shotDigitsL raw ++ (shotLetterL raw).map asciiUpper := by
      rw [shotNumberCondL, List.map_append]
      congr 1
      rw [List.map_congr_left fun c hc =>
        asciiUpper_of_digit (shotDigitsL_digits raw c hc)]
      exact List.map_id _
    rw [shot_code, hds, List.filter_append, List.filter_append]
    have h1 : (shotDigitsL raw).filter (fun c => !isAsciiUpperC c) = shotDigitsL raw :=
      List.filter_eq_self.mpr fun c hc => by
        rw [not_upper_of_digit (shotDigitsL_digits raw c hc)]
        rfl
    have h2 : ((shotLetterL raw).map asciiUpper).filter (fun c => !isAsciiUpperC c) = [] :=
      List.filter_eq_nil_iff.mpr fun c hc => by
        rcases List.mem_map.mp hc with ⟨d, hd, rfl⟩
        rw [isAsciiUpperC_asciiUpper_of_alpha (shotLetterL_alpha raw d hd)]
        simp
    have h3 : (shotDigitsL raw).filter (fun c => !isAsciiDigitC c) = [] :=
      List.filter_eq_nil_iff.mpr fun c hc => by
        rw [shotDigitsL_digits raw c hc]
        simp
    have h4 : ((shotLetterL raw).map asciiUpper).filter (fun c => !isAsciiDigitC c) =
        (shotLetterL raw).map asciiUpper :=
      List.filter_eq_self.mpr fun c hc => by
        rcases List.mem_map.mp hc with ⟨d, hd, rfl⟩
        rw [not_digit_of_upper
          (isAsciiUpperC_asciiUpper_of_alpha (shotLetterL_alpha raw d hd))]
        rfl
    rw [h1, h2, h3, h4, List.append_nil, List.nil_append]

/-- C7: a shot number whose conditioned form duplicates the number of an
already persisted Shot of the same Sequence fails validation, and the
(sequence_id, number) unique constraint rejects the duplicate row without
changing the table. -/
theorem C7_shot_number_uniqueness (db : List ShotRow) (sid : Nat)
    (raw : String)
    (h : ∃ r ∈ db, r.sequence_id = sid ∧ r.number = shotNumberCond raw) :
    (∃ msg, validates_number db sid raw = .error msg)
    ∧ (∃ msg, insertShot db ⟨sid, shotNumberCond raw⟩ = .error msg) := by
  obtain ⟨r, hr, hsid, hnum⟩ := h
  constructor
  · by_cases he : shotNumberCond raw = ""
    · exact ⟨"Shot.number is not in good format", by simp [validates_number, he]⟩
    · have hfind : db.find?
          (fun x => x.number == shotNumberCond raw && x.sequence_id == sid) ≠
          none := by
        intro hnone
        rw [List.find?_eq_none] at hnone
        have := hnone r hr
        simp [hnum, hsid] at this
      rcases hf : db.find?
          (fun x => x.number == shotNumberCond raw && x.sequence_id == sid) with
          _ | found
      · exact absurd hf hfind
      · exact ⟨"Shot.number already exists for the given sequence",
          by simp [validates_number, he, hf]⟩
  · have hany : db.any
        (fun x => x.sequence_id == sid && x.number == shotNumberCond raw) =
        true :=
      List.any_eq_true.mpr ⟨r, hr, by simp [hsid, hnum]⟩
    exact ⟨"UniqueConstraint violated", by simp [insertShot, hany]⟩

/-- C7 witness: sequence 1 already has shot number 12A; the raw number
12a conditions to 12A and both the validator and the unique constraint
reject it. -/
theorem C7_shot_number_uniqueness_witness :
    (∃ r ∈ ([⟨1, "12A"⟩] : List ShotRow),
        r.sequence_id = 1 ∧ r.number = shotNumberCond "12a")
    ∧ ((∃ msg, validates_number [⟨1, "12A"⟩] 1 "12a" = .error msg)
        ∧ (∃ msg, insertShot [⟨1, "12A"⟩] ⟨1, shotNumberCond "12a"⟩ =
            .error msg)) :=
  ⟨by decide, C7_shot_number_uniqueness [⟨1, "12A"⟩] 1 "12a" (by decide)⟩

/-- C8: constructing a Shot with both frames supplied leaves duration at
its initial value 1 (the end_frame validator guards the recomputation on
the old end_frame, which is still unset), while every later assignment of
either frame does recompute duration as end - start + 1.  This
contradicts the claim that duration equals end_frame - start_frame + 1
already at construction. -/
theorem C8_shot_duration_at_init (a b c : Int) :
    shot_init (some a) (some b) = some ⟨some a, some b, 1⟩
    ∧ (shot_init (some 5) (some 10)).map ShotState.duration = some 1
    ∧ (shot_init (some a) (some b)).bind
        (fun s => set_end_frame s (some c)) =
        some ⟨some a, some c, c - a + 1⟩
    ∧ (shot_init (some a) (some b)).map
        (fun s => set_start_frame s (some c)) =
        some ⟨some c, some b, b - c + 1⟩ := by
  refine ⟨?_, by decide, ?_, ?_⟩ <;>
    simp [shot_init, set_start_frame, set_end_frame]

theorem resolveFields_ne_err (cfg : SeqCfg) (f : AssetFields) :
    resolveFields cfg f ≠ .err := by
  unfold resolveFields
  split
  · simp
  · split
    · simp
    · simp

theorem extractFields_false_ne_err (parts : List (List Char)) :
    extractFields false parts ≠ .err := by
  unfold extractFields
  rw [if_pos rfl]
  split
  · simp
  · split
    · simp
    · simp

/-- C10: with the legacy (noSubNameField) grammar, a file name splitting
into exactly 4 parts makes the parse read parts[4] past the end — an
uncaught IndexError — instead of soft-skipping; at least 5 parts never
raise, and fewer than 4 parts soft-skip. -/
theorem C10_legacy_four_parts (cfg : SeqCfg) (s : List Char)
    (h : cfg.noSubNameField = true) :
    ((splitU s).length = 4 →
      guessInfoVariablesFromFileName cfg s = .err)
    ∧ (5 ≤ (splitU s).length →
      guessInfoVariablesFromFileName cfg s ≠ .err)
    ∧ ((splitU s).length < 4 →
      guessInfoVariablesFromFileName cfg s = .noInfo) := by
  refine ⟨?_, ?_, ?_⟩
  · intro hl
    have hp : (splitU s)[4]? = none := List.getElem?_eq_none (by omega)
    simp [guessInfoVariablesFromFileName, extractFields, h, hp, hl]
  · intro hl
    cases hp : (splitU s)[4]? with
    | none =>
      have := List.getElem?_eq_none_iff.mp hp
      omega
    | some ui =>
      have h4 : ¬(splitU s).length < 4 := by omega
      simp only [guessInfoVariablesFromFileName, extractFields, h]
      rw [if_neg (by simp), if_neg h4, hp]
      exact resolveFields_ne_err cfg _
  · intro hl
    simp [guessInfoVariablesFromFileName, extractFields, h, hl]

/-- C10 witness: the 4-part legacy name Car_MODEL_r01_v001 crashes with
an IndexError. -/
theorem C10_legacy_four_parts_witness :
    cfgLegacy.noSubNameField = true
    ∧ (splitU "Car_MODEL_r01_v001".data).length = 4
    ∧ guessInfoVariablesFromFileName cfgLegacy "Car_MODEL_r01_v001".data =
        .err :=
  ⟨by decide, by decide,
    (C10_legacy_four_parts cfgLegacy "Car_MODEL_r01_v001".data
      (by decide)).1 (by decide)⟩

/-- C9 (amended): during resolution an unknown type code soft-skips, a
failing rev/ver integer conversion (int of the string with len(prefix)
characters sliced off) soft-skips, and the subName-grammar scan never
raises; but the conversion does not check that the prefix actually
matches, see the counterexample. -/
theorem C9_soft_parse (cfg : SeqCfg) (f : AssetFields) (s : List Char) :
    (getAssetTypeWithName cfg.assetTypeNames f.typeName = none →
      resolveFields cfg f = .noInfo)
    ∧ (convertToRevNumber cfg.revPre f.revString = none →
      resolveFields cfg f = .noInfo)
    ∧ (convertToVerNumber cfg.verPre f.verString = none →
      resolveFields cfg f = .noInfo)
    ∧ (cfg.noSubNameField = false →
      guessInfoVariablesFromFileName cfg s ≠ .err) := by
  refine ⟨?_, ?_, ?_, ?_⟩
  · intro h
    simp [resolveFields, h]
  · intro h
    cases hty : getAssetTypeWithName cfg.assetTypeNames f.typeName with
    | none => simp [resolveFields, hty]
    | some t => simp [resolveFields, hty, h]
  · intro h
    cases hty : getAssetTypeWithName cfg.assetTypeNames f.typeName with
    | none => simp [resolveFields, hty]
    | some t =>
      cases hrev : convertToRevNumber cfg.revPre f.revString with
      | none => simp [resolveFields, hty, hrev]
      | some rv => simp [resolveFields, hty, hrev, h]
  · intro h
    unfold guessInfoVariablesFromFileName
    rw [h]
    cases hE : extractFields false (splitU s) with
    | noInfo => simp
    | err => exact absurd hE (extractFields_false_ne_err _)
    | fields f' =>
      simp only
      exact resolveFields_ne_err cfg f'

/-- C9 witness: the unknown type code RIG soft-skips resolution. -/
theorem C9_soft_parse_witness :
    getAssetTypeWithName cfgNewDefault.assetTypeNames "RIG".data = none
    ∧ resolveFields cfgNewDefault
        ⟨"Car".data, "MAIN".data, "RIG".data, "r01".data, "v003".data,
          "oy".data, []⟩ = .noInfo :=
  ⟨by decide,
    (C9_soft_parse cfgNewDefault
      ⟨"Car".data, "MAIN".data, "RIG".data, "r01".data, "v003".data,
        "oy".data, []⟩ []).1 (by decide)⟩

/-- C9 counterexample: the rev string x01 does not match the anchored
r + digits pattern, yet the parse accepts the file name
Car_MAIN_MODEL_x01_v002_oy with full info (rev 1), because
convertToRevNumber slices off len(prefix) characters without checking
them; the claim that such a name yields the soft NotAnAsset outcome is
false. -/
theorem C9_counterexample :
    validRevStringB "r".data "x01".data = false
    ∧ guessInfoVariablesFromFileName cfgNewDefault
        "Car_MAIN_MODEL_x01_v002_oy".data =
      ParseOutcome.full
        ⟨"Car".data, "MAIN".data, "MODEL".data, "x01".data, "v002".data,
          "oy".data, []⟩ 1 2 := by
  constructor
  · decide
  · decide

theorem exmap_ok (f : String → String) (a : String) :
    Except.map f (Except.ok a : Except String String) = .ok (f a) := rfl

theorem exmap_error (f : String → String) (e : String) :
    Except.map f (.error e : Except String String) = .error e := rfl

theorem exbind_ok (a : String) (k : String → Except String String) :
    (Except.ok a >>= k) = k a := rfl

theorem exbind_error (e : String) (k : String → Except String String) :
    (Except.error e >>= k) = Except.error e := rfl

theorem jinjaRender_go (env : JEnv) (ts : List TmplTok) : ∀ acc : String,
    (∃ out, List.foldlM
        (fun acc t => (renderTok env t).map (fun s => acc ++ s)) acc ts =
        Except.ok out) ↔
      (∀ n f, TmplTok.attr n f ∈ ts → n ∈ env.defined) := by
  induction ts with
  | nil =>
    intro acc
    constructor
    · intro _ n f hm
      simp at hm
    · intro _
      exact ⟨acc, rfl⟩
  | cons t ts ih =>
    intro acc
    rw [List.foldlM_cons]
    cases t with
    | lit s =>
      rw [show renderTok env (.lit s) = .ok s from rfl, exmap_ok, exbind_ok]
      rw [ih]
      simp
    | var n =>
      by_cases hc : env.defined.contains n = true
      · rw [show renderTok env (.var n) = .ok (env.varVal n) by
          simp only [renderTok]; rw [if_pos hc], exmap_ok, exbind_ok]
        rw [ih]
        simp
      · rw [show renderTok env (.var n) = .ok "" by
          simp only [renderTok]; rw [if_neg hc], exmap_ok, exbind_ok]
        rw [ih]
        simp
    | attr n f =>
      by_cases hc : env.defined.contains n = true
      · have hmem : n ∈ env.defined := by simpa using hc
        rw [show renderTok env (.attr n f) = .ok (env.attrVal n f) by
          simp only [renderTok]; rw [if_pos hc], exmap_ok, exbind_ok]
        rw [ih]
        constructor
        · intro hall n' f' hm
          rcases List.mem_cons.mp hm with heq | hm
          · cases heq
            exact hmem
          · exact hall n' f' hm
        · intro hall n' f' hm
          exact hall n' f' (List.mem_cons_of_mem _ hm)
      · have hmem : n ∉ env.defined := by simpa using hc
        rw [show renderTok env (.attr n f) = .error "UndefinedError" by
          simp only [renderTok]; rw [if_neg hc], exmap_error, exbind_error]
        constructor
        · intro hex
          rcases hex with ⟨out, hout⟩
          simp at hout
        · intro hall
          exact absurd (hall n f (List.mem_cons_self _ _)) hmem

/-- C5 (amended): under jinja2's default-undefined semantics, rendering a
Version template succeeds exactly when every attribute access in the
template names a supplied variable; a bare reference to an unsupplied
variable is silently rendered as the empty string, not an error. -/
theorem C5_render_default_semantics :
    (∀ env ts, (∃ out, jinjaRender env ts = .ok out) ↔
      (∀ n f, TmplTok.attr n f ∈ ts → n ∈ env.defined))
    ∧ (∀ (env : JEnv) n, n ∉ env.defined →
      renderTok env (.var n) = .ok "") :=
  ⟨fun env ts => jinjaRender_go env ts "",
   fun env n h => by simp [renderTok, h]⟩

/-- C5 witness: in the Version environment the name foo is not supplied,
and a bare reference to it renders as the empty string. -/
theorem C5_render_default_semantics_witness :
    "foo" ∉ (mkVersionEnv (fun _ => "V") (fun _ _ => "A")).defined
    ∧ renderTok (mkVersionEnv (fun _ => "V") (fun _ _ => "A"))
        (TmplTok.var "foo") = .ok "" :=
  ⟨by decide, C5_render_default_semantics.2 _ "foo" (by decide)⟩

/-- C5 counterexample: a template consisting of a bare reference to a
variable outside the supplied set renders successfully as the empty
string in the Version environment — no TemplateRenderError is raised and
the empty string is silently substituted, contradicting the claim. -/
theorem C5_counterexample :
    jinjaRender (mkVersionEnv (fun _ => "V") (fun _ _ => "A"))
      [TmplTok.var "foo"] = .ok "" := rfl

theorem splitU_ne_nil (l : List Char) : splitU l ≠ [] := by
  cases l with
  | nil => simp [splitU]
  | cons c rest =>
    unfold splitU
    by_cases h : c = '_'
    · simp [h]
    · rw [if_neg h]
      cases hs : splitU rest with
      | nil => simp
      | cons w ws => simp

theorem splitU_no_sep {w : List Char} (h : '_' ∉ w) : splitU w = [w] := by
  induction w with
  | nil => rfl
  | cons c rest ih =>
    have hc : c ≠ '_' := fun hh => h (hh ▸ List.mem_cons_self _ _)
    have hrest : '_' ∉ rest := fun hm => h (List.mem_cons_of_mem _ hm)
    unfold splitU
    rw [if_neg hc, ih hrest]

theorem splitU_cons (c : Char) (l : List Char) :
    splitU (c :: l) =
      if c = '_' then [] :: splitU l
      else
        match splitU l with
        | w :: ws => (c :: w) :: ws
        | [] => [[c]] := by
  rw [splitU]

theorem splitU_append_sep {w : List Char} (t : List Char) (h : '_' ∉ w) :
    splitU (w ++ '_' :: t) = w :: splitU t := by
  induction w with
  | nil => simp [splitU]
  | cons c rest ih =>
    have hc : c ≠ '_' := fun hh => h (hh ▸ List.mem_cons_self _ _)
    have hrest : '_' ∉ rest := fun hm => h (List.mem_cons_of_mem _ hm)
    show splitU (c :: (rest ++ '_' :: t)) = _
    rw [splitU_cons, if_neg hc, ih hrest]

theorem joinU_splitU (l : List Char) : joinU (splitU l) = l := by
  induction l with
  | nil => rfl
  | cons c rest ih =>
    unfold splitU
    by_cases h : c = '_'
    · rw [if_pos h]
      subst h
      cases hs : splitU rest with
      | nil => exact absurd hs (splitU_ne_nil rest)
      | cons w ws =>
        rw [hs] at ih
        show joinU ([] :: w :: ws) = _
        show ([] : List Char) ++ '_' :: joinU (w :: ws) = _
        rw [List.nil_append, ih]
    · rw [if_neg h]
      cases hs : splitU rest with
      | nil => exact absurd hs (splitU_ne_nil rest)
      | cons w ws =>
        rw [hs] at ih
        cases ws with
        | nil =>
          show c :: w = c :: rest
          have : w = rest := ih
          rw [this]
        | cons w2 ws2 =>
          show (c :: w) ++ '_' :: joinU (w2 :: ws2) = c :: rest
          have : w ++ '_' :: joinU (w2 :: ws2) = rest := ih
          rw [List.cons_append, this]

theorem splitU_join6 (b s t r v u : List Char)
    (hb : '_' ∉ b) (hs : '_' ∉ s) (ht : '_' ∉ t) (hr : '_' ∉ r)
    (hv : '_' ∉ v) (hu : '_' ∉ u) :
    splitU (joinU [b, s, t, r, v, u]) = [b, s, t, r, v, u] := by
  show splitU
    (b ++ '_' :: (s ++ '_' :: (t ++ '_' :: (r ++ '_' :: (v ++ '_' :: u))))) = _
  rw [splitU_append_sep _ hb, splitU_append_sep _ hs, splitU_append_sep _ ht,
    splitU_append_sep _ hr, splitU_append_sep _ hv, splitU_no_sep hu]

theorem splitU_join7 (b s t r v u w : List Char)
    (hb : '_' ∉ b) (hs : '_' ∉ s) (ht : '_' ∉ t) (hr : '_' ∉ r)
    (hv : '_' ∉ v) (hu : '_' ∉ u) :
    splitU (joinU [b, s, t, r, v, u, w]) =
      b :: s :: t :: r :: v :: u :: splitU w := by
  show splitU
    (b ++ '_' :: (s ++ '_' :: (t ++ '_' :: (r ++ '_' ::
      (v ++ '_' :: (u ++ '_' :: w)))))) = _
  rw [splitU_append_sep _ hb, splitU_append_sep _ hs, splitU_append_sep _ ht,
    splitU_append_sep _ hr, splitU_append_sep _ hv, splitU_append_sep _ hu]

theorem dropWhile_all_false {p : Char → Bool} {l : List Char}
    (h : ∀ c ∈ l, p c = false) : l.dropWhile p = l := by
  cases l with
  | nil => rfl
  | cons c rest =>
    rw [List.dropWhile_cons, h c (List.mem_cons_self _ _)]
    simp

theorem stripPy_eq_self {l : List Char}
    (h : ∀ c ∈ l, isSpacePy c = false) : stripPy l = l := by
  unfold stripPy
  rw [dropWhile_all_false h,
    dropWhile_all_false (fun c hc => h c (List.mem_reverse.mp hc)),
    List.reverse_reverse]

theorem not_space_of_digit {c : Char} (h : isAsciiDigitC c = true) :
    isSpacePy c = false := by
  have hd := isAsciiDigitC_iff.mp h
  cases hs : isSpacePy c with
  | false => rfl
  | true =>
    exfalso
    have h' : c = ' ' ∨ c = '\t' ∨ c = '\n' ∨ c = '\r' ∨ c = '\x0b' ∨
        c = '\x0c' := by
      have hx := hs
      simp only [isSpacePy, Bool.or_eq_true, decide_eq_true_eq] at hx
      tauto
    rcases h' with rfl | rfl | rfl | rfl | rfl | rfl <;>
      exact absurd hd (by decide)

theorem pyInt_digits {l : List Char} (h1 : l ≠ [])
    (h2 : ∀ c ∈ l, isAsciiDigitC c = true) : ∃ n : Int, pyInt l = some n := by
  cases l with
  | nil => exact absurd rfl h1
  | cons d rest =>
    have hd := h2 d (List.mem_cons_self _ _)
    have hsp : stripPy (d :: rest) = d :: rest :=
      stripPy_eq_self (fun c hc => not_space_of_digit (h2 c hc))
    have h45 : d ≠ '-' := by
      intro hh
      rw [hh] at hd
      exact absurd hd (by decide)
    have h43 : d ≠ '+' := by
      intro hh
      rw [hh] at hd
      exact absurd hd (by decide)
    have hall : (d :: rest).all isAsciiDigitC = true := List.all_eq_true.mpr h2
    refine ⟨(((d :: rest).foldl (fun a c => a * 10 + (c.toNat - 48)) 0 : Nat) :
      Int), ?_⟩
    simp only [pyInt, hsp]
    rw [if_neg h45, if_neg h43]
    simp [pyNatDigits, hall]

theorem isEmpty_false_of_ne {x : List Char} (hx : x ≠ []) :
    x.isEmpty = false := by
  cases x with
  | nil => exact absurd rfl hx
  | cons a b => rfl

theorem validRevStringB_of_digits {pre s d : List Char}
    (hs : s = pre ++ d) (hd1 : d ≠ [])
    (hd2 : ∀ c ∈ d, isAsciiDigitC c = true) :
    validRevStringB pre s = true := by
  unfold validRevStringB
  rw [hs, List.take_left, List.drop_left]
  cases d with
  | nil => exact absurd rfl hd1
  | cons c rest =>
    simp [hd2 c (List.mem_cons_self _ _)]

theorem isValidAsset_true (cfg : SeqCfg) (f : AssetFields)
    (hns : cfg.noSubNameField = false)
    (hb : f.baseName ≠ []) (hs : f.subName ≠ []) (ht : f.typeName ≠ [])
    (hu : f.userInitials ≠ [])
    (hrne : f.revString ≠ []) (hvne : f.verString ≠ [])
    (hrv : validRevStringB cfg.revPre f.revString = true)
    (hvv : validRevStringB cfg.verPre f.verString = true) :
    isValidAsset cfg f = true := by
  unfold isValidAsset
  rw [hns]
  simp [isEmpty_false_of_ne hb, isEmpty_false_of_ne hs,
    isEmpty_false_of_ne ht, isEmpty_false_of_ne hu,
    isEmpty_false_of_ne hrne, isEmpty_false_of_ne hvne, hrv, hvv]

theorem resolveFields_full (cfg : SeqCfg) (f : AssetFields) (dr dv : List Char)
    (hty : f.typeName ∈ cfg.assetTypeNames)
    (hrv : f.revString = cfg.revPre ++ dr) (hdr1 : dr ≠ [])
    (hdr2 : ∀ c ∈ dr, isAsciiDigitC c = true)
    (hvv : f.verString = cfg.verPre ++ dv) (hdv1 : dv ≠ [])
    (hdv2 : ∀ c ∈ dv, isAsciiDigitC c = true) :
    ∃ rev ver, resolveFields cfg f = .full f rev ver := by
  have hrev : ∃ n, convertToRevNumber cfg.revPre f.revString = some n := by
    unfold convertToRevNumber
    rw [hrv, List.drop_left]
    exact pyInt_digits hdr1 hdr2
  have hver : ∃ n, convertToVerNumber cfg.verPre f.verString = some n := by
    unfold convertToVerNumber
    rw [hvv, List.drop_left]
    exact pyInt_digits hdv1 hdv2
  obtain ⟨nr, hnr⟩ := hrev
  obtain ⟨nv, hnv⟩ := hver
  have hfind : (getAssetTypeWithName cfg.assetTypeNames f.typeName).isSome =
      true :=
    List.find?_isSome.mpr ⟨f.typeName, hty, by simp⟩
  cases hfx : getAssetTypeWithName cfg.assetTypeNames f.typeName with
  | none =>
    rw [hfx] at hfind
    simp at hfind
  | some x =>
    exact ⟨nr, nv, by simp only [resolveFields, hfx, hnr, hnv]⟩

/-- C2 (amended): round-trip of the legacy renderer and parser.  For a
sequence with a subName field, any asset whose baseName, subName,
typeName and userInitials are nonempty and separator-free, whose
revString / verString are the rev/ver prefix followed by a nonempty digit
run (hence at least 6 rendered parts), and whose type is registered,
renders to a file name that parses back to exactly the same seven info
variables (notes may be empty or contain separators).  The 5-part example
of the claim is not reachable this way — see the counterexample. -/
theorem C2_roundtrip (cfg : SeqCfg) (f : AssetFields) (dr dv : List Char)
    (hns : cfg.noSubNameField = false)
    (hb1 : f.baseName ≠ []) (hb2 : '_' ∉ f.baseName)
    (hs1 : f.subName ≠ []) (hs2 : '_' ∉ f.subName)
    (ht1 : f.typeName ≠ []) (ht2 : '_' ∉ f.typeName)
    (hu1 : f.userInitials ≠ []) (hu2 : '_' ∉ f.userInitials)
    (hrv : f.revString = cfg.revPre ++ dr) (hdr1 : dr ≠ [])
    (hdr2 : ∀ c ∈ dr, isAsciiDigitC c = true) (hrvU : '_' ∉ f.revString)
    (hvv : f.verString = cfg.verPre ++ dv) (hdv1 : dv ≠ [])
    (hdv2 : ∀ c ∈ dv, isAsciiDigitC c = true) (hvvU : '_' ∉ f.verString)
    (hty : f.typeName ∈ cfg.assetTypeNames) :
    ∃ name rev ver,
      fileNameWithoutExtension cfg f = some name
      ∧ guessInfoVariablesFromFileName cfg name = .full f rev ver := by
  have hrne : f.revString ≠ [] := by
    rw [hrv]
    intro hh
    exact hdr1 (List.append_eq_nil.mp hh).2
  have hvne : f.verString ≠ [] := by
    rw [hvv]
    intro hh
    exact hdv1 (List.append_eq_nil.mp hh).2
  have hvalid : isValidAsset cfg f = true :=
    isValidAsset_true cfg f hns hb1 hs1 ht1 hu1 hrne hvne
      (validRevStringB_of_digits hrv hdr1 hdr2)
      (validRevStringB_of_digits hvv hdv1 hdv2)
  obtain ⟨nr, nv, hres⟩ :=
    resolveFields_full cfg f dr dv hty hrv hdr1 hdr2 hvv hdv1 hdv2
  by_cases hnotes : f.notes.isEmpty = true
  · have hnotes' : f.notes = [] := by simpa using hnotes
    refine ⟨joinU [f.baseName, f.subName, f.typeName, f.revString,
      f.verString, f.userInitials], nr, nv, ?_, ?_⟩
    · unfold fileNameWithoutExtension
      rw [if_pos hvalid, hns, hnotes]
      simp
    · unfold guessInfoVariablesFromFileName
      rw [hns, splitU_join6 _ _ _ _ _ _ hb2 hs2 ht2 hrvU hvvU hu2]
      have hext : extractFields false [f.baseName, f.subName, f.typeName,
          f.revString, f.verString, f.userInitials] =
          .fields ⟨f.baseName, f.subName, f.typeName, f.revString,
            f.verString, f.userInitials, []⟩ := rfl
      rw [hext]
      have hf : (⟨f.baseName, f.subName, f.typeName, f.revString,
          f.verString, f.userInitials, []⟩ : AssetFields) = f := by
        rw [← hnotes']
      rw [hf]
      exact hres
  · have hnotes' : f.notes ≠ [] := by simpa using hnotes
    refine ⟨joinU [f.baseName, f.subName, f.typeName, f.revString,
      f.verString, f.userInitials, f.notes], nr, nv, ?_, ?_⟩
    · unfold fileNameWithoutExtension
      rw [if_pos hvalid, hns, isEmpty_false_of_ne hnotes']
      simp
    · unfold guessInfoVariablesFromFileName
      rw [hns, splitU_join7 _ _ _ _ _ _ _ hb2 hs2 ht2 hrvU hvvU hu2]
      have hk : 0 < (splitU f.notes).length :=
        List.length_pos.mpr (splitU_ne_nil _)
      have h5 : ¬(f.baseName :: f.subName :: f.typeName :: f.revString ::
          f.verString :: f.userInitials :: splitU f.notes).length < 5 := by
        simp only [List.length_cons]
        omega
      have h6 : 6 < (f.baseName :: f.subName :: f.typeName :: f.revString ::
          f.verString :: f.userInitials :: splitU f.notes).length := by
        simp only [List.length_cons]
        omega
      have hext : extractFields false (f.baseName :: f.subName ::
          f.typeName :: f.revString :: f.verString :: f.userInitials ::
          splitU f.notes) =
          .fields ⟨f.baseName, f.subName, f.typeName, f.revString,
            f.verString, f.userInitials, joinU (splitU f.notes)⟩ := by
        unfold extractFields
        rw [if_pos rfl, if_neg h5]
        simp only [List.getElem?_cons_succ, List.getElem?_cons_zero]
        rw [if_pos h6]
        simp only [List.getD_cons_zero, List.getD_cons_succ,
          List.drop_succ_cons, List.drop_zero]
      rw [hext, joinU_splitU]
      have hf : (⟨f.baseName, f.subName, f.typeName, f.revString,
          f.verString, f.userInitials, f.notes⟩ : AssetFields) = f := rfl
      rw [hf]
      exact hres

/-- C2 witness: the asset Car / MAIN / MODEL / r01 / v003 / oy with empty
notes renders to Car_MAIN_MODEL_r01_v003_oy and parses back to exactly
the same info variables. -/
theorem C2_roundtrip_witness :
    ∃ name rev ver,
      fileNameWithoutExtension cfgNewDefault
        ⟨"Car".data, "MAIN".data, "MODEL".data, "r01".data, "v003".data,
          "oy".data, []⟩ = some name
      ∧ guessInfoVariablesFromFileName cfgNewDefault name =
        .full ⟨"Car".data, "MAIN".data, "MODEL".data, "r01".data,
          "v003".data, "oy".data, []⟩ rev ver :=
  C2_roundtrip cfgNewDefault
    ⟨"Car".data, "MAIN".data, "MODEL".data, "r01".data, "v003".data,
      "oy".data, []⟩ "01".data "003".data
    (by decide) (by decide) (by decide) (by decide) (by decide) (by decide)
    (by decide) (by decide) (by decide) (by decide) (by decide) (by decide)
    (by decide) (by decide) (by decide) (by decide) (by decide) (by decide)

/-- C2 counterexample: parsing the 5-part name Car_MAIN_MODEL_v003_oy in
a sequence with a subName field and a registered type MODEL leaves the
asset without full info (the parser needs at least 6 parts: the caught
IndexError on the missing 6th part soft-resets the file name), so it does
not yield the metadata the claim states. -/
theorem C2_counterexample :
    guessInfoVariablesFromFileName cfgNewDefault
      "Car_MAIN_MODEL_v003_oy".data = ParseOutcome.noInfo := by
  decide

theorem isSpacePy_toNat {c : Char} (h : isSpacePy c = true) :
    c.toNat = 32 ∨ c.toNat = 9 ∨ c.toNat = 10 ∨ c.toNat = 13 ∨
      c.toNat = 11 ∨ c.toNat = 12 := by
  have hx := h
  simp only [isSpacePy, Bool.or_eq_true, decide_eq_true_eq] at hx
  have hor : c = ' ' ∨ c = '\t' ∨ c = '\n' ∨ c = '\r' ∨ c = '\x0b' ∨
      c = '\x0c' := by tauto
  rcases hor with rfl | rfl | rfl | rfl | rfl | rfl <;> simp

theorem isAsciiAlphaC_iff {c : Char} :
    isAsciiAlphaC c = true ↔
      (65 ≤ c.toNat ∧ c.toNat ≤ 90) ∨ (97 ≤ c.toNat ∧ c.toNat ≤ 122) := by
  constructor
  · intro h
    have h' : isAsciiLowerC c = true ∨ isAsciiUpperC c = true := by
      simpa [isAsciiAlphaC] using h
    rcases h' with h' | h'
    · exact Or.inr (isAsciiLowerC_iff.mp h')
    · exact Or.inl (isAsciiUpperC_iff.mp h')
  · intro h
    rcases h with h | h
    · simp [isAsciiAlphaC, isAsciiUpperC_iff.mpr h]
    · simp [isAsciiAlphaC, isAsciiLowerC_iff.mpr h]

theorem not_space_of_alpha {c : Char} (h : isAsciiAlphaC c = true) :
    isSpacePy c = false := by
  have hd := isAsciiAlphaC_iff.mp h
  cases hs : isSpacePy c with
  | false => rfl
  | true =>
    exfalso
    rcases isSpacePy_toNat hs with h' | h' | h' | h' | h' | h' <;> omega

theorem asciiUpper_idem (c : Char) :
    asciiUpper (asciiUpper c) = asciiUpper c := by
  by_cases h : isAsciiLowerC c = true
  · have hb := isAsciiLowerC_iff.mp h
    have ht : (asciiUpper c).toNat = c.toNat - 32 := by
      rw [asciiUpper_toNat, if_pos hb]
    apply asciiUpper_of_not_lower
    rw [← Bool.not_eq_true, isAsciiLowerC_iff, ht]
    omega
  · have hb : isAsciiLowerC c = false := by simpa using h
    rw [asciiUpper_of_not_lower hb, asciiUpper_of_not_lower hb]

theorem goodPC_cases {c : Char} (h : goodPC c = true) :
    isAsciiUpperC c = true ∨ isAsciiDigitC c = true ∨ c = '_' := by
  have hx := h
  simp only [goodPC, Bool.or_eq_true, decide_eq_true_eq] at hx
  tauto

theorem goodPC_not_lower {c : Char} (h : goodPC c = true) :
    isAsciiLowerC c = false := by
  rw [← Bool.not_eq_true, isAsciiLowerC_iff]
  rcases goodPC_cases h with h' | h' | rfl
  · have := isAsciiUpperC_iff.mp h'
    omega
  · have := isAsciiDigitC_iff.mp h'
    omega
  · simp

theorem goodPC_not_space {c : Char} (h : goodPC c = true) :
    isSpacePy c = false := by
  cases hs : isSpacePy c with
  | false => rfl
  | true =>
    exfalso
    have hnat : c.toNat = 32 ∨ c.toNat = 9 ∨ c.toNat = 10 ∨ c.toNat = 13 ∨
        c.toNat = 11 ∨ c.toNat = 12 := isSpacePy_toNat hs
    rcases goodPC_cases h with h' | h' | rfl
    · have := isAsciiUpperC_iff.mp h'
      omega
    · have := isAsciiDigitC_iff.mp h'
      omega
    · simp at hnat

theorem goodPC_ne_dash {c : Char} (h : goodPC c = true) : c ≠ '-' := by
  intro rfl45
  subst rfl45
  rcases goodPC_cases h with h' | h' | h'
  · exact absurd h' (by decide)
  · exact absurd h' (by decide)
  · exact absurd h' (by decide)

theorem goodPC_keepAllowed {c : Char} (h : goodPC c = true) :
    keepAllowedC c = true := by
  rcases goodPC_cases h with h' | h' | rfl
  · simp [keepAllowedC, isAlnumC, isAsciiAlphaC, h']
  · simp [keepAllowedC, isAlnumC, h']
  · simp [keepAllowedC]

theorem goodPC_upper_fixed {c : Char} (h : goodPC c = true) :
    asciiUpper c = c :=
  asciiUpper_of_not_lower (goodPC_not_lower h)

theorem map_eq_self_of_id {α : Type} {f : α → α} {l : List α}
    (h : ∀ c ∈ l, f c = c) : l.map f = l := by
  rw [List.map_congr_left h]
  exact List.map_id _

theorem insertU_nil_ps : ∀ (x : List Char) (idx : Nat), insertU x idx [] = x := by
  intro x
  induction x with
  | nil => intro idx; rfl
  | cons c rest ih =>
    intro idx
    unfold insertU
    rw [ih]
    rfl

theorem camelSub_no_lower {l : List Char}
    (h : ∀ c ∈ l, isAsciiLowerC c = false) : camelSub l = l := by
  have hm : ∀ i, matchEndAt l i = none := by
    intro i
    unfold matchEndAt
    apply List.findSome?_eq_none_iff.mpr
    intro k _
    have hlow : isLowerAt l (i + k) = false := by
      unfold isLowerAt
      cases hg : l[i + k]? with
      | none => rfl
      | some c => exact h c (List.getElem?_mem hg)
    simp [hlow]
  have hf : ∀ t, firstMatchFrom l t = none := by
    intro t
    apply List.findSome?_eq_none_iff.mpr
    intro i _
    by_cases hi : t ≤ i
    · simp [hi, hm i]
    · simp [hi]
  have hp : ∀ fuel t, camelPositions l fuel t = [] := by
    intro fuel
    cases fuel with
    | zero => intro t; rfl
    | succ n =>
      intro t
      unfold camelPositions
      rw [hf]
  unfold camelSub
  rw [hp]
  exact insertU_nil_ps l 0

theorem dashToU_eq_self {l : List Char} (h : ∀ c ∈ l, c ≠ '-') :
    dashToU l = l :=
  map_eq_self_of_id fun c hc => if_neg (h c hc)

theorem keepAllowed_eq_self {l : List Char}
    (h : ∀ c ∈ l, keepAllowedC c = true) : keepAllowed l = l :=
  List.filter_eq_self.mpr h

theorem dropLeadingNonAlpha_eq_self {l : List Char}
    (h : ∀ (c : Char) (rest : List Char), l = c :: rest →
      isAsciiAlphaC c = true) :
    dropLeadingNonAlpha l = l := by
  cases hl : l with
  | nil => rfl
  | cons c rest =>
    unfold dropLeadingNonAlpha
    rw [List.dropWhile_cons, h c rest hl]
    simp

theorem spaceAux_eq_self {l : List Char}
    (h : ∀ c ∈ l, isSpacePy c = false) : ∀ b, spaceAux b l = l := by
  induction l with
  | nil => intro b; rfl
  | cons c rest ih =>
    intro b
    unfold spaceAux
    rw [h c (List.mem_cons_self _ _)]
    simp only [Bool.false_eq_true, if_false]
    rw [ih (fun c hc => h c (List.mem_cons_of_mem _ hc)) false]

theorem spaceRunsToU_eq_self {l : List Char}
    (h : ∀ c ∈ l, isSpacePy c = false) : spaceRunsToU l = l :=
  spaceAux_eq_self h false

theorem upperL_eq_self {l : List Char} (h : ∀ c ∈ l, asciiUpper c = c) :
    upperL l = l :=
  map_eq_self_of_id h

theorem spaceAux_mem {l : List Char} :
    ∀ b, ∀ c' ∈ spaceAux b l, c' = '_' ∨ (c' ∈ l ∧ isSpacePy c' = false) := by
  induction l with
  | nil =>
    intro b c' hc'
    simp [spaceAux] at hc'
  | cons c rest ih =>
    intro b c' hc'
    unfold spaceAux at hc'
    by_cases hs : isSpacePy c = true
    · rw [if_pos hs] at hc'
      cases b with
      | true =>
        rw [if_pos rfl] at hc'
        rcases ih true c' hc' with h | ⟨hm, hns⟩
        · exact Or.inl h
        · exact Or.inr ⟨List.mem_cons_of_mem _ hm, hns⟩
      | false =>
        rw [if_neg (by simp)] at hc'
        rcases List.mem_cons.mp hc' with rfl | hc'
        · exact Or.inl rfl
        · rcases ih true c' hc' with h | ⟨hm, hns⟩
          · exact Or.inl h
          · exact Or.inr ⟨List.mem_cons_of_mem _ hm, hns⟩
    · rw [if_neg hs] at hc'
      rcases List.mem_cons.mp hc' with rfl | hc'
      · exact Or.inr ⟨List.mem_cons_self _ _, by simpa using hs⟩
      · rcases ih false c' hc' with h | ⟨hm, hns⟩
        · exact Or.inl h
        · exact Or.inr ⟨List.mem_cons_of_mem _ hm, hns⟩

theorem spaceRunsToU_head {c : Char} {rest : List Char}
    (hc : isSpacePy c = false) :
    spaceRunsToU (c :: rest) = c :: spaceAux false rest := by
  rw [show spaceRunsToU (c :: rest) =
    if isSpacePy c = true then '_' :: spaceAux true rest
    else c :: spaceAux false rest from rfl]
  rw [if_neg (by simp [hc])]

theorem dropWhile_head_false {p : Char → Bool} {x : List Char} {c : Char}
    {rest : List Char} (h : x.dropWhile p = c :: rest) : p c = false := by
  induction x with
  | nil => simp [List.dropWhile] at h
  | cons a as ih =>
    rw [List.dropWhile_cons] at h
    by_cases hp : p a = true
    · rw [if_pos hp] at h
      exact ih h
    · rw [if_neg hp] at h
      injection h with h1 _
      rw [← h1]
      simpa using hp

theorem condition_name_good (l : List Char) :
    (∀ c ∈ condition_name l, goodPC c = true) ∧
    (condition_name l = [] ∨
      ∃ c rest, condition_name l = c :: rest ∧ isAsciiUpperC c = true) := by
  have hx : ∀ c ∈ keepAllowed (camelSub (dashToU (stripPy l))),
      keepAllowedC c = true :=
    fun c hc => (List.mem_filter.mp hc).2
  have hy : ∀ c ∈ dropLeadingNonAlpha (keepAllowed (camelSub (dashToU
      (stripPy l)))), keepAllowedC c = true :=
    fun c hc => hx c (List.Sublist.mem hc (List.dropWhile_sublist _))
  constructor
  · intro c hcm
    obtain ⟨c0, hc0, rfl⟩ := List.mem_map.mp hcm
    rcases spaceAux_mem false c0 hc0 with rfl | ⟨hc0y, hc0s⟩
    · decide
    · have hk := hy c0 hc0y
      have halt : isAlnumC c0 = true ∨ c0 = '_' := by
        have h3 : isAlnumC c0 = true ∨ isSpacePy c0 = true ∨ c0 = '_' := by
          have hx2 := hk
          simp only [keepAllowedC, Bool.or_eq_true, decide_eq_true_eq] at hx2
          tauto
        rcases h3 with h | h | h
        · exact Or.inl h
        · rw [h] at hc0s
          simp at hc0s
        · exact Or.inr h
      rcases halt with h | rfl
      · have h4 : isAsciiAlphaC c0 = true ∨ isAsciiDigitC c0 = true := by
          have hx2 := h
          simp only [isAlnumC, Bool.or_eq_true] at hx2
          tauto
        rcases h4 with ha | hd
        · simp [goodPC, isAsciiUpperC_asciiUpper_of_alpha ha]
        · rw [asciiUpper_of_digit hd]
          simp [goodPC, hd]
      · decide
  · cases hy0 : dropLeadingNonAlpha (keepAllowed (camelSub (dashToU
        (stripPy l)))) with
    | nil =>
      left
      show upperL (spaceRunsToU (dropLeadingNonAlpha (keepAllowed (camelSub
        (dashToU (stripPy l)))))) = []
      rw [hy0]
      rfl
    | cons c rest =>
      have hca : isAsciiAlphaC c = true := by
        have := dropWhile_head_false hy0
        simpa using this
      have hcs : isSpacePy c = false := not_space_of_alpha hca
      right
      refine ⟨asciiUpper c, upperL (spaceAux false rest), ?_,
        isAsciiUpperC_asciiUpper_of_alpha hca⟩
      show upperL (spaceRunsToU (dropLeadingNonAlpha (keepAllowed (camelSub
        (dashToU (stripPy l)))))) = _
      rw [hy0, spaceRunsToU_head hcs]
      rfl

theorem alpha_of_upper {c : Char} (h : isAsciiUpperC c = true) :
    isAsciiAlphaC c = true := by
  simp [isAsciiAlphaC, h]

theorem condition_name_idem (l : List Char) :
    condition_name (condition_name l) = condition_name l := by
  obtain ⟨hmem, hhead⟩ := condition_name_good l
  have hns : ∀ c ∈ condition_name l, isSpacePy c = false :=
    fun c hc => goodPC_not_space (hmem c hc)
  have hnl : ∀ c ∈ condition_name l, isAsciiLowerC c = false :=
    fun c hc => goodPC_not_lower (hmem c hc)
  have hnd : ∀ c ∈ condition_name l, c ≠ '-' :=
    fun c hc => goodPC_ne_dash (hmem c hc)
  have hka : ∀ c ∈ condition_name l, keepAllowedC c = true :=
    fun c hc => goodPC_keepAllowed (hmem c hc)
  have hup : ∀ c ∈ condition_name l, asciiUpper c = c :=
    fun c hc => goodPC_upper_fixed (hmem c hc)
  show upperL (spaceRunsToU (dropLeadingNonAlpha (keepAllowed (camelSub
    (dashToU (stripPy (condition_name l))))))) = _
  rw [stripPy_eq_self hns, dashToU_eq_self hnd, camelSub_no_lower hnl,
    keepAllowed_eq_self hka]
  rw [dropLeadingNonAlpha_eq_self (fun c rest hcr => by
    rcases hhead with hnil | ⟨c', rest', heq, hupc⟩
    · rw [hnil] at hcr
      exact absurd hcr (by simp)
    · rw [heq] at hcr
      injection hcr with h1 _
      rw [h1] at hupc
      exact alpha_of_upper hupc)]
  rw [spaceRunsToU_eq_self hns, upperL_eq_self hup]

theorem alpha_ne_underscore {c : Char} (h : isAsciiAlphaC c = true) :
    c ≠ '_' := by
  intro hh
  subst hh
  exact absurd h (by decide)

theorem alnum_asciiUpper {c : Char} (h : isAlnumC c = true) :
    isAlnumC (asciiUpper c) = true := by
  have h4 : isAsciiAlphaC c = true ∨ isAsciiDigitC c = true := by
    have hx := h
    simp only [isAlnumC, Bool.or_eq_true] at hx
    tauto
  rcases h4 with ha | hd
  · have := isAsciiUpperC_asciiUpper_of_alpha ha
    simp [isAlnumC, isAsciiAlphaC, this]
  · rw [asciiUpper_of_digit hd]
    exact h

theorem not_space_of_alnum_or_u {c : Char}
    (h : isAlnumC c = true ∨ c = '_') : isSpacePy c = false := by
  rcases h with h | rfl
  · have h4 : isAsciiAlphaC c = true ∨ isAsciiDigitC c = true := by
      have hx := h
      simp only [isAlnumC, Bool.or_eq_true] at hx
      tauto
    rcases h4 with ha | hd
    · exact not_space_of_alpha ha
    · exact not_space_of_digit hd
  · decide

theorem ne_dash_of_alnum_or_u {c : Char}
    (h : isAlnumC c = true ∨ c = '_') : c ≠ '-' := by
  rcases h with h | rfl
  · intro hh
    subst hh
    exact absurd h (by decide)
  · decide

theorem keepAllowed_of_alnum_or_u {c : Char}
    (h : isAlnumC c = true ∨ c = '_') : keepAllowedC c = true := by
  rcases h with h | rfl
  · simp [keepAllowedC, h]
  · simp [keepAllowedC]

theorem splitU_mem {x : List Char} :
    ∀ w ∈ splitU x, ∀ c ∈ w, c ∈ x ∧ c ≠ '_' := by
  induction x with
  | nil =>
    intro w hw c hc
    simp [splitU] at hw
    subst hw
    simp at hc
  | cons a rest ih =>
    intro w hw c hc
    rw [splitU_cons] at hw
    by_cases ha : a = '_'
    · rw [if_pos ha] at hw
      rcases List.mem_cons.mp hw with rfl | hw
      · simp at hc
      · have := ih w hw c hc
        exact ⟨List.mem_cons_of_mem _ this.1, this.2⟩
    · rw [if_neg ha] at hw
      cases hs : splitU rest with
      | nil => exact absurd hs (splitU_ne_nil rest)
      | cons w0 ws0 =>
        rw [hs] at hw
        rcases List.mem_cons.mp hw with rfl | hw
        · rcases List.mem_cons.mp hc with rfl | hc
          · exact ⟨List.mem_cons_self _ _, ha⟩
          · have hw0 : w0 ∈ splitU rest := by
              rw [hs]
              exact List.mem_cons_self _ _
            have := ih w0 hw0 c hc
            exact ⟨List.mem_cons_of_mem _ this.1, this.2⟩
        · have hw' : w ∈ splitU rest := by
            rw [hs]
            exact List.mem_cons_of_mem _ hw
          have := ih w hw' c hc
          exact ⟨List.mem_cons_of_mem _ this.1, this.2⟩

theorem joinU_mem {ws : List (List Char)} :
    ∀ c ∈ joinU ws, c = '_' ∨ ∃ w ∈ ws, c ∈ w := by
  induction ws with
  | nil =>
    intro c hc
    simp [joinU] at hc
  | cons w ws ih =>
    intro c hc
    cases ws with
    | nil => exact Or.inr ⟨w, List.mem_cons_self _ _, hc⟩
    | cons w2 ws2 =>
      have hc' : c ∈ w ++ '_' :: joinU (w2 :: ws2) := hc
      rcases List.mem_append.mp hc' with h | h
      · exact Or.inr ⟨w, List.mem_cons_self _ _, h⟩
      · rcases List.mem_cons.mp h with rfl | h
        · exact Or.inl rfl
        · rcases ih c h with h' | ⟨w', hw', hcw'⟩
          · exact Or.inl h'
          · exact Or.inr ⟨w', List.mem_cons_of_mem _ hw', hcw'⟩

theorem splitU_joinU {ws : List (List Char)} (h0 : ws ≠ [])
    (h : ∀ w ∈ ws, '_' ∉ w) : splitU (joinU ws) = ws := by
  induction ws with
  | nil => exact absurd rfl h0
  | cons w ws ih =>
    cases ws with
    | nil => exact splitU_no_sep (h w (List.mem_cons_self _ _))
    | cons w2 ws2 =>
      show splitU (w ++ '_' :: joinU (w2 :: ws2)) = _
      rw [splitU_append_sep _ (h w (List.mem_cons_self _ _))]
      rw [ih (by simp) (fun w' hw' => h w' (List.mem_cons_of_mem _ hw'))]

theorem capWord_capWord (w : List Char) : capWord (capWord w) = capWord w := by
  cases w with
  | nil => rfl
  | cons c rest =>
    show asciiUpper (asciiUpper c) :: rest = asciiUpper c :: rest
    rw [asciiUpper_idem]

theorem capWord_ne_nil {w : List Char} (h : w ≠ []) : capWord w ≠ [] := by
  cases w with
  | nil => exact absurd rfl h
  | cons c rest => simp [capWord]

theorem asciiUpper_ne_underscore {c : Char} (h : c ≠ '_') :
    asciiUpper c ≠ '_' := by
  by_cases hl : isAsciiLowerC c = true
  · have hb := isAsciiLowerC_iff.mp hl
    have ht : (asciiUpper c).toNat = c.toNat - 32 := by
      rw [asciiUpper_toNat, if_pos hb]
    intro hh
    rw [hh] at ht
    have : ('_').toNat = 95 := by decide
    omega
  · rw [asciiUpper_of_not_lower (by simpa using hl)]
    exact h

theorem capWord_no_sep {w : List Char} (h : '_' ∉ w) : '_' ∉ capWord w := by
  cases w with
  | nil => simp [capWord]
  | cons c rest =>
    intro hm
    rcases List.mem_cons.mp hm with he | hm
    · have hc : c ≠ '_' := fun hh => h (hh ▸ List.mem_cons_self _ _)
      exact asciiUpper_ne_underscore hc he.symm
    · exact h (List.mem_cons_of_mem _ hm)

theorem capWord_mem {w : List Char} {c : Char} (hc : c ∈ capWord w) :
    (∃ c0 ∈ w, c = asciiUpper c0) ∨ c ∈ w := by
  cases w with
  | nil => simp [capWord] at hc
  | cons c0 rest =>
    rcases List.mem_cons.mp hc with rfl | hc'
    · exact Or.inl ⟨c0, List.mem_cons_self _ _, rfl⟩
    · exact Or.inr (List.mem_cons_of_mem _ hc')

theorem joinU_cons_head (a : Char) (w : List Char) (ws : List (List Char)) :
    ∃ tl, joinU ((a :: w) :: ws) = a :: tl := by
  cases ws with
  | nil => exact ⟨w, rfl⟩
  | cons w2 ws2 =>
    refine ⟨w ++ '_' :: joinU (w2 :: ws2), ?_⟩
    show (a :: w) ++ '_' :: joinU (w2 :: ws2) = _
    rw [List.cons_append]

theorem version_condition_name_good (l : List Char) :
    ∃ ws : List (List Char),
      version_condition_name l = joinU ws
      ∧ (∀ w ∈ ws, w ≠ [] ∧ '_' ∉ w ∧ capWord w = w)
      ∧ (∀ c ∈ joinU ws, isAlnumC c = true ∨ c = '_')
      ∧ (joinU ws = [] ∨
          ∃ c rest, joinU ws = c :: rest ∧ isAsciiAlphaC c = true) := by
  have hy : ∀ c ∈ dropLeadingNonAlpha (keepAllowed (dashToU (stripPy l))),
      keepAllowedC c = true :=
    fun c hc => (List.mem_filter.mp
      (List.Sublist.mem hc (List.dropWhile_sublist _))).2
  have hxc : ∀ c ∈ spaceRunsToU (dropLeadingNonAlpha (keepAllowed (dashToU
      (stripPy l)))), isAlnumC c = true ∨ c = '_' := by
    intro c hc
    rcases spaceAux_mem false c hc with rfl | ⟨hcy, hcs⟩
    · exact Or.inr rfl
    · have hk := hy c hcy
      have h3 : isAlnumC c = true ∨ isSpacePy c = true ∨ c = '_' := by
        have hx2 := hk
        simp only [keepAllowedC, Bool.or_eq_true, decide_eq_true_eq] at hx2
        tauto
      rcases h3 with h | h | h
      · exact Or.inl h
      · rw [h] at hcs
        simp at hcs
      · exact Or.inr h
  refine ⟨((splitU (spaceRunsToU (dropLeadingNonAlpha (keepAllowed (dashToU
    (stripPy l)))))).filter (fun w => !w.isEmpty)).map capWord, by rfl, ?_, ?_, ?_⟩
  · intro w hw
    obtain ⟨w0, hw0, rfl⟩ := List.mem_map.mp hw
    obtain ⟨hw0s, hw0e⟩ := List.mem_filter.mp hw0
    have hw0ne : w0 ≠ [] := by
      intro hh
      rw [hh] at hw0e
      simp at hw0e
    have hw0u : '_' ∉ w0 := fun hm => (splitU_mem w0 hw0s '_' hm).2 rfl
    exact ⟨capWord_ne_nil hw0ne, capWord_no_sep hw0u, capWord_capWord w0⟩
  · intro c hc
    rcases joinU_mem c hc with rfl | ⟨w, hw, hcw⟩
    · exact Or.inr rfl
    · obtain ⟨w0, hw0, rfl⟩ := List.mem_map.mp hw
      obtain ⟨hw0s, _⟩ := List.mem_filter.mp hw0
      rcases capWord_mem hcw with ⟨c0, hc0, rfl⟩ | hcw'
      · obtain ⟨hc0x, hc0u⟩ := splitU_mem w0 hw0s c0 hc0
        rcases hxc c0 hc0x with h | h
        · exact Or.inl (alnum_asciiUpper h)
        · exact absurd h hc0u
      · obtain ⟨hcx, hcu⟩ := splitU_mem w0 hw0s c hcw'
        rcases hxc c hcx with h | h
        · exact Or.inl h
        · exact absurd h hcu
  · cases hy0 : dropLeadingNonAlpha (keepAllowed (dashToU (stripPy l))) with
    | nil =>
      left
      rfl
    | cons c rest =>
      have hca : isAsciiAlphaC c = true := by
        have := dropWhile_head_false hy0
        simpa using this
      have hcs : isSpacePy c = false := not_space_of_alpha hca
      have hcu : c ≠ '_' := alpha_ne_underscore hca
      rw [spaceRunsToU_head hcs]
      rw [splitU_cons, if_neg hcu]
      cases hs : splitU (spaceAux false rest) with
      | nil => exact absurd hs (splitU_ne_nil _)
      | cons w0 ws0 =>
        right
        have hfl : ((c :: w0) :: ws0).filter (fun w => !w.isEmpty) =
            (c :: w0) :: ws0.filter (fun w => !w.isEmpty) := by
          rw [List.filter_cons]
          simp
        rw [hfl]
        show ∃ c' rest', joinU (capWord (c :: w0) ::
          (ws0.filter (fun w => !w.isEmpty)).map capWord) = c' :: rest' ∧ _
        obtain ⟨tl, htl⟩ := joinU_cons_head (asciiUpper c) w0
          ((ws0.filter (fun w => !w.isEmpty)).map capWord)
        refine ⟨asciiUpper c, tl, htl, ?_⟩
        exact alpha_of_upper (isAsciiUpperC_asciiUpper_of_alpha hca)

theorem version_condition_name_idem (l : List Char) :
    version_condition_name (version_condition_name l) =
      version_condition_name l := by
  obtain ⟨ws, hout, hws, hchar, hhead⟩ := version_condition_name_good l
  rw [hout]
  have hns : ∀ c ∈ joinU ws, isSpacePy c = false :=
    fun c hc => not_space_of_alnum_or_u (hchar c hc)
  have hnd : ∀ c ∈ joinU ws, c ≠ '-' :=
    fun c hc => ne_dash_of_alnum_or_u (hchar c hc)
  have hka : ∀ c ∈ joinU ws, keepAllowedC c = true :=
    fun c hc => keepAllowed_of_alnum_or_u (hchar c hc)
  show titleCaseU (spaceRunsToU (dropLeadingNonAlpha (keepAllowed (dashToU
    (stripPy (joinU ws)))))) = _
  rw [stripPy_eq_self hns, dashToU_eq_self hnd, keepAllowed_eq_self hka]
  rw [dropLeadingNonAlpha_eq_self (fun c rest hcr => by
    rcases hhead with hnil | ⟨c', rest', heq, hac⟩
    · rw [hnil] at hcr
      exact absurd hcr (by simp)
    · rw [heq] at hcr
      injection hcr with h1 _
      exact h1 ▸ hac)]
  rw [spaceRunsToU_eq_self hns]
  cases hws0 : ws with
  | nil => rfl
  | cons w0 ws0 =>
    rw [hws0] at hws
    unfold titleCaseU
    rw [splitU_joinU (List.cons_ne_nil _ _) (fun w hw => (hws w hw).2.1)]
    have hfl : (w0 :: ws0).filter (fun w => !w.isEmpty) = w0 :: ws0 :=
      List.filter_eq_self.mpr (fun w hw => by
        rw [isEmpty_false_of_ne (hws w hw).1]
        rfl)
    rw [hfl, map_eq_self_of_id (fun w hw => (hws w hw).2.2)]

/-- C4: both name-conditioning variants are idempotent on printable-ASCII
inputs containing at least one letter: the upper-casing variant used for
Project and Sequence names and the title-casing variant used for Version
base and take names. -/
theorem C4_condition_idempotent (l : List Char)
    (h1 : ∀ c ∈ l, 32 ≤ c.toNat ∧ c.toNat ≤ 126)
    (h2 : ∃ c ∈ l, isAsciiAlphaC c = true) :
    condition_name (condition_name l) = condition_name l
    ∧ version_condition_name (version_condition_name l) =
        version_condition_name l :=
  ⟨condition_name_idem l, version_condition_name_idem l⟩

/-- C4 witness: the printable-ASCII input test project 1 contains a
letter and both conditioners are idempotent on it (it conditions to
TEST_PROJECT_1 and Test_Project_1 respectively). -/
theorem C4_condition_idempotent_witness :
    (∀ c ∈ "test project 1".data, 32 ≤ c.toNat ∧ c.toNat ≤ 126)
    ∧ (∃ c ∈ "test project 1".data, isAsciiAlphaC c = true)
    ∧ (condition_name (condition_name "test project 1".data) =
          condition_name "test project 1".data
        ∧ version_condition_name (version_condition_name
            "test project 1".data) =
          version_condition_name "test project 1".data) :=
  ⟨by decide, by decide,
   C4_condition_idempotent "test project 1".data (by decide) (by decide)⟩

/-- Sanity check of the conditioner model against the Python pipeline. -/
theorem condition_name_examples :
    condition_name "test project 1".data = "TEST_PROJECT_1".data
    ∧ condition_name "CamelCase".data = "CAMEL_CASE".data
    ∧ version_condition_name "test project 1".data = "Test_Project_1".data := by
  refine ⟨by decide, by decide, by decide⟩

end OyPM
